import Mathlib

/-!
Verification of the Locale Key Synchronization Engine
(`apps/dokploy/public/locales/sync_all_keys.py`).

The script keeps every locale's `common.json` / `settings.json` consistent in
key coverage with the English reference locale `en`: it loads the reference
file, and for every other locale directory loads the target file, computes the
keys of the reference absent from the target, appends those pairs (with the
English value as a placeholder) to the target mapping, and rewrites the file
with `json.dumps(..., ensure_ascii=False, indent=4)`, converting the indent to
tabs when a tab occurs in the first 100 characters of the original content.

Python dictionaries are embedded as ordered association lists; the filesystem
tree seen by one `sync_file(base_dir, filename)` call is embedded as a list of
directory entries, each holding the state of `<dir>/<filename>`.  A
successfully parsed file is carried as `FileState.valid raw data`, pairing the
raw bytes with the mapping that `json.load` returns for them; a write stores
`valid (dump_json raw newData) newData`, embedding the `json` round trip.  An
unparsable file is `FileState.invalid raw`: `json.load` raises on it, and the
script has no handler, so the exception aborts the run (`Option` result
`none`, i.e. a non-zero process exit).
-/

namespace LocaleSync

/-- Ordered string-to-string mapping: the shallow embedding of a Python `dict`
loaded from a flat JSON object file (insertion order preserved). -/
abbrev KVMap := List (String × String)

/-- Python `k in d` membership test on an embedded dict. -/
def hasKey (m : KVMap) (k : String) : Bool := m.any (fun p => p.1 == k)

/-- Python `d[k]` (first occurrence; embedded dicts of real runs have unique
keys). -/
def lookupVal : KVMap → String → Option String
  | [], _ => none
  | p :: rest, k => if p.1 == k then some p.2 else lookupVal rest k

/-- Python `d[k] = v`: overwrite in place when the key is present, append at
the end otherwise. -/
def dictInsert (m : KVMap) (k : String) (v : String) : KVMap :=
  if hasKey m k then m.map (fun p => if p.1 = k then (p.1, v) else p)
  else m ++ [(k, v)]

/-- Python `d.update(u)`: repeated `dictInsert` in `u`'s iteration order. -/
def dictUpdate (m upd : KVMap) : KVMap :=
  upd.foldl (fun acc p => dictInsert acc p.1 p.2) m

/-- `missing_keys = \x7bk: en_data[k] for k in en_data if k not in lang_data\x7d`
(line 103 of `sync_all_keys.py`): the reference pairs whose key is absent from
the target, in the reference's iteration order. -/
def missingKeys (en lang : KVMap) : KVMap :=
  en.filter (fun p => !(hasKey lang p.1))

/-- Python `str.isspace`-style whitespace test for the ASCII characters that
can occur here (used for the truthiness of `line.strip()`). -/
def pyIsSpace (c : Char) : Bool :=
  c == ' ' || c == '\t' || c == '\n' || c == '\r' || c == '\x0b' || c == '\x0c'

/-- Python `line.count("    ")`: number of non-overlapping occurrences of four
spaces, scanning left to right. -/
def count4sp : List Char → Nat
  | ' ' :: ' ' :: ' ' :: ' ' :: rest => count4sp rest + 1
  | _ :: rest => count4sp rest
  | [] => 0

/-- Python `line.replace("    ", "\t", n)`: replace the first `n`
non-overlapping occurrences of four spaces by one tab, scanning left to
right (with `n = 0` nothing is replaced). -/
def repl4spTab : List Char → Nat → List Char
  | s, 0 => s
  | ' ' :: ' ' :: ' ' :: ' ' :: rest, n + 1 => '\t' :: repl4spTab rest n
  | c :: rest, n + 1 => c :: repl4spTab rest (n + 1)
  | [], _ => []

/-- Indentation detection of `dump_json` (line 54):
`indent = "\t" if "\t" in original_content[:100] else "    "`. -/
def isTabStyle (orig : String) : Bool := (orig.toList.take 100).contains '\t'

/-- One line of the tab conversion in `dump_json` (lines 59-63):
`line.replace("    ", "\t", line.count("    ") // 4) if line.strip() else line`. -/
def tabifyLine (l : List Char) : List Char :=
  if l.any (fun c => !(pyIsSpace c)) then repl4spTab l (count4sp l / 4) else l

/-- Python `s.split("\n")` for the one-character separator used by the
source. -/
def splitNl : List Char → List (List Char)
  | [] => [[]]
  | '\n' :: rest => [] :: splitNl rest
  | c :: rest =>
    match splitNl rest with
    | [] => [[c]]
    | l :: ls => (c :: l) :: ls

/-- The whole tab conversion of `dump_json`: split on newlines, convert each
non-blank line, re-join with newlines. -/
def tabify (s : String) : String :=
  String.mk (List.intercalate ['\n'] ((splitNl s.toList).map tabifyLine))

/-- Hexadecimal digit as emitted by `json.dumps` for control characters. -/
def hexDigit (n : Nat) : Char :=
  if n < 10 then Char.ofNat (48 + n) else Char.ofNat (87 + n)

/-- Escaping of one character inside a JSON string as performed by
`json.dumps(..., ensure_ascii=False)`: quote, backslash and control characters
are escaped, everything else (non-ASCII included) is kept literally. -/
def pyJsonEscapeChar (c : Char) : String :=
  if c == '"' then "\\\""
  else if c == '\\' then "\\\\"
  else if c == '\n' then "\\n"
  else if c == '\t' then "\\t"
  else if c == '\r' then "\\r"
  else if c == '\x08' then "\\b"
  else if c == '\x0c' then "\\f"
  else if c.toNat < 32 then
    "\\u00" ++ String.mk [hexDigit (c.toNat / 16), hexDigit (c.toNat % 16)]
  else String.singleton c

/-- A JSON string literal as emitted by `json.dumps(..., ensure_ascii=False)`. -/
def pyJsonQuote (s : String) : String :=
  "\"" ++ String.join (s.toList.map pyJsonEscapeChar) ++ "\""

/-- `json.dumps(data, ensure_ascii=False, indent=4)` on a flat string-valued
object: `\x7b\x7d` when empty, otherwise one four-space-indented
`"key": "value"` line per entry, comma separated. -/
def jsonDumps (m : KVMap) : String :=
  match m with
  | [] => "\x7b\x7d"
  | _ =>
    "\x7b\n"
      ++ String.intercalate ",\n"
          (m.map (fun p => "    " ++ pyJsonQuote p.1 ++ ": " ++ pyJsonQuote p.2))
      ++ "\n\x7d"

/-- `dump_json(path, data)` (lines 48-68): re-serialize `data` with four-space
indent, run the tab conversion when a tab occurs in the first 100 characters
of the file's original content, and append a single trailing newline.  The
function returns the new raw content of the file. -/
def dump_json (origContent : String) (data : KVMap) : String :=
  let formatted := jsonDumps data
  let formatted := if isTabStyle origContent then tabify formatted else formatted
  formatted ++ "\n"

/-- State of `<dir>/<filename>` for one directory and one configured filename:
missing, present but unparsable (`json.load` raises), or present and parsed.
`valid raw data` pairs the raw bytes with the mapping `json.load` returns for
them, embedding the `json` round trip: a write stores the serialized bytes
together with the mapping they serialize. -/
inductive FileState where
  | absent : FileState
  | invalid (raw : String) : FileState
  | valid (raw : String) (data : KVMap) : FileState
deriving DecidableEq, Repr

/-- One immediate subdirectory of the locales root, with the state of the
currently synchronized filename inside it. -/
structure DirEntry where
  name : String
  file : FileState
deriving DecidableEq, Repr

/-- `lang_code.startswith(".")` (line 90): the first character is a dot. -/
def isHidden (s : String) : Bool :=
  match s.toList with
  | [] => false
  | c :: _ => c == '.'

/-- The loop-skip condition of `sync_file` (line 90):
`if lang_code == "en" or lang_code.startswith("."): continue`. -/
def skipDir (name : String) : Bool := name == "en" || isHidden name

/-- `base_dir / "en" / filename`: the state of the reference file, looked up
among the subdirectories (absent when there is no `en` directory or it lacks
the file). -/
def lookupEn (t : List DirEntry) : FileState :=
  match t.find? (fun d => d.name == "en") with
  | some d => d.file
  | none => FileState.absent

/-- The body of `sync_file`'s per-directory loop (lines 86-111) for one
directory: skip `en` and hidden names, skip a missing file, let the
`json.load` exception escape on an unparsable file (`none`), otherwise compute
the missing keys, and when there are any, update the mapping and rewrite the
file.  Returns the new entry and the number of keys added. -/
def procDir (en : KVMap) (d : DirEntry) : Option (DirEntry × Nat) :=
  if skipDir d.name then some (d, 0)
  else
    match d.file with
    | FileState.absent => some (d, 0)
    | FileState.invalid _ => none
    | FileState.valid raw data =>
      let missing := missingKeys en data
      if missing.isEmpty then some (d, 0)
      else
        let newData := dictUpdate data missing
        some (⟨d.name, FileState.valid (dump_json raw newData) newData⟩, missing.length)

/-- The per-directory loop of `sync_file` over an already sorted directory
list: accumulate `total_added`; an escaping exception (`none`) leaves the
failing directory and every later one untouched. -/
def runDirs (en : KVMap) : List DirEntry → List DirEntry × Option Nat
  | [] => ([], some 0)
  | d :: rest =>
    match procDir en d with
    | none => (d :: rest, none)
    | some (d2, n) =>
      let out := runDirs en rest
      (d2 :: out.1, out.2.map (fun m => n + m))

/-- Comparison used by `sorted(p for p in base_dir.iterdir() if p.is_dir())`
(line 86): sibling `Path`s compare by their final component, i.e. the
directory names compare lexicographically by code point (the order of their
character lists). -/
def nameLe (a b : DirEntry) : Prop := a.name.toList ≤ b.name.toList

instance : DecidableRel nameLe :=
  fun a b => inferInstanceAs (Decidable (a.name.toList ≤ b.name.toList))

/-- Strict version of `nameLe`, used to identify sorted lists with distinct
names. -/
def nameLt (a b : DirEntry) : Prop := a.name.toList < b.name.toList

instance : DecidableRel nameLt :=
  fun a b => inferInstanceAs (Decidable (a.name.toList < b.name.toList))

instance : IsTotal DirEntry nameLe := ⟨fun a b => le_total a.name.toList b.name.toList⟩

instance : IsTrans DirEntry nameLe := ⟨fun _ _ _ hab hbc => le_trans hab hbc⟩

instance : IsAntisymm DirEntry nameLt :=
  ⟨fun _ _ h1 h2 => absurd h1 (not_lt_of_gt h2)⟩

/-- `sorted(...)` over the directory entries. -/
def sortTree (t : List DirEntry) : List DirEntry := List.insertionSort nameLe t

/-- `sync_file(base_dir, filename)` (lines 71-115) on the embedded tree of
subdirectories: when the reference file is absent the call prints a warning
and returns 0 without touching anything; when it is unparsable the
`json.load` exception aborts the run; otherwise the sorted directory list is
processed.  Returns the new tree (in sorted order) and `some total_added`, or
`none` when an exception escaped. -/
def sync_file (t : List DirEntry) : List DirEntry × Option Nat :=
  match lookupEn t with
  | FileState.absent => (sortTree t, some 0)
  | FileState.invalid _ => (sortTree t, none)
  | FileState.valid _ en => runDirs en (sortTree t)

/-- `main()` (lines 118-129): `sync_file` on `common.json`, then on
`settings.json`.  The two trees hold the states of the two filenames in the
locale directories; an exception in the first pass prevents the second and
makes the process exit non-zero (`none`); otherwise the totals are reported
and the exit status is zero. -/
def mainRun (c s : List DirEntry) : (List DirEntry × List DirEntry) × Option (Nat × Nat) :=
  let rc := sync_file c
  match rc.2 with
  | none => ((rc.1, s), none)
  | some n1 =>
    let rs := sync_file s
    match rs.2 with
    | none => ((rc.1, rs.1), none)
    | some n2 => ((rc.1, rs.1), some (n1, n2))

/-- Relation between the directory list before and after one loop pass: the
name is preserved, and skipped entries (the reference directory and hidden
directories) are preserved whole. -/
def entryRel (a b : DirEntry) : Prop :=
  a.name = b.name ∧ (skipDir a.name = true → a = b)

/-- Tree refuting C3 as stated: locale `aa` has a malformed file, locale `bb`
is missing the reference key `a`. -/
def treeC3 : List DirEntry :=
  [⟨"en", FileState.valid "E" [("a", "Hello")]⟩,
   ⟨"aa", FileState.invalid "not json"⟩,
   ⟨"bb", FileState.valid "\x7b\x7d\n" []⟩]

/-- Tree with no `en` directory at all. -/
def treeC4 : List DirEntry := [⟨"fr", FileState.valid "\x7b\x7d\n" []⟩]

/-- Tree whose reference file is present but whose `de` file is malformed. -/
def treeC4m : List DirEntry :=
  [⟨"en", FileState.valid "E" [("a", "Hello")]⟩, ⟨"de", FileState.invalid "x"⟩]

/-- Original content of a tab-indented target file. -/
def tabOrig : String := "\x7b\n\t\"a\": \"x\"\n\x7d\n"

/-- Concrete locale trees for the idempotence witness: `fr/common.json` is
missing key `b`, so the first run adds it and rewrites the file; the second
run then finds nothing to add. -/
def witComm : List DirEntry :=
  [⟨"en", FileState.valid "E" [("a", "Hello"), ("b", "World")]⟩,
   ⟨"fr", FileState.valid "\x7b\n    \"a\": \"Bonjour\"\n\x7d\n" [("a", "Bonjour")]⟩]

def witSett : List DirEntry :=
  [⟨"en", FileState.valid "E" [("k", "V")]⟩,
   ⟨"fr", FileState.valid "\x7b\n    \"k\": \"V\"\n\x7d\n" [("k", "V")]⟩]

/-! ## Dictionary lemmas -/

theorem hasKey_nil (k : String) : hasKey [] k = false := rfl

theorem hasKey_cons (p : String × String) (m : KVMap) (k : String) :
    hasKey (p :: m) k = ((p.1 == k) || hasKey m k) := rfl

theorem hasKey_append (m1 m2 : KVMap) (k : String) :
    hasKey (m1 ++ m2) k = (hasKey m1 k || hasKey m2 k) := by
  simp [hasKey, List.any_append]

theorem hasKey_iff_mem (m : KVMap) (k : String) :
    hasKey m k = true ↔ ∃ v, (k, v) ∈ m := by
  constructor
  · intro h
    rcases List.any_eq_true.mp h with ⟨p, hp, hpk⟩
    have hk : p.1 = k := by simpa using hpk
    subst hk
    exact ⟨p.2, by simpa using hp⟩
  · rintro ⟨v, hv⟩
    exact List.any_eq_true.mpr ⟨(k, v), hv, by simp⟩

theorem hasKey_overwrite (m : KVMap) (k v k' : String) :
    hasKey (m.map (fun p => if p.1 = k then (p.1, v) else p)) k' = hasKey m k' := by
  induction m with
  | nil => rfl
  | cons q rest ih =>
    simp only [List.map_cons]
    rw [hasKey_cons, hasKey_cons, ih]
    congr 1
    by_cases hq : q.1 = k <;> simp [hq]

theorem hasKey_dictInsert (m : KVMap) (k v k' : String) :
    hasKey (dictInsert m k v) k' = true ↔ (hasKey m k' = true ∨ k' = k) := by
  unfold dictInsert
  cases h : hasKey m k with
  | true =>
    rw [if_pos rfl, hasKey_overwrite]
    constructor
    · exact Or.inl
    · rintro (hk | rfl)
      · exact hk
      · exact h
  | false =>
    rw [if_neg (by simp [h]), hasKey_append, hasKey_cons, hasKey_nil]
    simp only [Bool.or_false, Bool.or_eq_true, beq_iff_eq]
    constructor
    · rintro (hk | rfl)
      · exact Or.inl hk
      · exact Or.inr rfl
    · rintro (hk | rfl)
      · exact Or.inl hk
      · exact Or.inr rfl

theorem hasKey_dictUpdate (m upd : KVMap) (k : String) :
    hasKey (dictUpdate m upd) k = true ↔
      (hasKey m k = true ∨ hasKey upd k = true) := by
  induction upd generalizing m with
  | nil => simp [dictUpdate, hasKey]
  | cons p rest ih =>
    show hasKey (dictUpdate (dictInsert m p.1 p.2) rest) k = true ↔ _
    rw [ih, hasKey_dictInsert, hasKey_cons]
    simp only [Bool.or_eq_true, beq_iff_eq]
    constructor
    · rintro ((h | rfl) | h)
      · exact Or.inl h
      · exact Or.inr (Or.inl rfl)
      · exact Or.inr (Or.inr h)
    · rintro (h | (rfl | h))
      · exact Or.inl (Or.inl h)
      · exact Or.inl (Or.inr rfl)
      · exact Or.inr h

theorem lookupVal_map_overwrite (m : KVMap) (k v k' : String) (hne : k' ≠ k) :
    lookupVal (m.map (fun p => if p.1 = k then (p.1, v) else p)) k' = lookupVal m k' := by
  induction m with
  | nil => rfl
  | cons q rest ih =>
    simp only [List.map_cons]
    by_cases hqk : q.1 = k
    · have hq1 : ¬ q.1 = k' := fun h => hne (h.symm.trans hqk)
      rw [if_pos hqk]
      show lookupVal ((q.1, v) :: _) k' = lookupVal (q :: rest) k'
      rw [lookupVal, lookupVal, if_neg (by simp [hq1]), if_neg (by simp [hq1]), ih]
    · rw [if_neg hqk]
      by_cases hq1 : q.1 = k'
      · rw [lookupVal, lookupVal, if_pos (by simp [hq1]), if_pos (by simp [hq1])]
      · rw [lookupVal, lookupVal, if_neg (by simp [hq1]), if_neg (by simp [hq1]), ih]

theorem lookupVal_append_single_ne (m : KVMap) (k v k' : String) (hne : k' ≠ k) :
    lookupVal (m ++ [(k, v)]) k' = lookupVal m k' := by
  induction m with
  | nil =>
    have hk : ¬ k = k' := fun hc => hne hc.symm
    simp [lookupVal, hk]
  | cons q rest ih =>
    rw [List.cons_append, lookupVal, lookupVal]
    by_cases hq : q.1 = k'
    · rw [if_pos (by simp [hq]), if_pos (by simp [hq])]
    · rw [if_neg (by simp [hq]), if_neg (by simp [hq]), ih]

theorem lookupVal_dictInsert_ne (m : KVMap) (k v k' : String) (hne : k' ≠ k) :
    lookupVal (dictInsert m k v) k' = lookupVal m k' := by
  unfold dictInsert
  cases h : hasKey m k with
  | true =>
    rw [if_pos rfl]
    exact lookupVal_map_overwrite m k v k' hne
  | false =>
    rw [if_neg (by simp)]
    exact lookupVal_append_single_ne m k v k' hne

theorem lookupVal_dictUpdate_not_in_upd (m upd : KVMap) (k : String)
    (h : hasKey upd k = false) :
    lookupVal (dictUpdate m upd) k = lookupVal m k := by
  induction upd generalizing m with
  | nil => rfl
  | cons p rest ih =>
    rw [hasKey_cons, Bool.or_eq_false_iff] at h
    show lookupVal (dictUpdate (dictInsert m p.1 p.2) rest) k = _
    rw [ih _ h.2, lookupVal_dictInsert_ne]
    intro hk
    rw [hk] at h
    simp at h

theorem hasKey_missingKeys_of_present (en data : KVMap) (k : String)
    (h : hasKey data k = true) : hasKey (missingKeys en data) k = false := by
  by_contra hcontra
  rw [Bool.not_eq_false] at hcontra
  rcases List.any_eq_true.mp hcontra with ⟨p, hp, hpk⟩
  have hk : p.1 = k := by simpa using hpk
  have habs := (List.mem_filter.mp hp).2
  rw [hk] at habs
  simp [h] at habs

theorem dictUpdate_eq_append (m upd : KVMap)
    (hdisj : ∀ p ∈ upd, hasKey m p.1 = false)
    (hnd : (upd.map Prod.fst).Nodup) :
    dictUpdate m upd = m ++ upd := by
  induction upd generalizing m with
  | nil => simp [dictUpdate]
  | cons p rest ih =>
    have h1 : hasKey m p.1 = false := hdisj p (by simp)
    have hins : dictInsert m p.1 p.2 = m ++ [(p.1, p.2)] := by
      unfold dictInsert; rw [if_neg (by simp [h1])]
    have hhead : p.1 ∉ rest.map Prod.fst := by
      simp only [List.map_cons, List.nodup_cons] at hnd
      exact hnd.1
    show dictUpdate (dictInsert m p.1 p.2) rest = m ++ p :: rest
    rw [hins, ih (m ++ [(p.1, p.2)])]
    · simp
    · intro q hq
      have hq1 : hasKey m q.1 = false := hdisj q (List.mem_cons_of_mem _ hq)
      have hq2 : q.1 ≠ p.1 := by
        intro hcontra
        exact hhead (hcontra ▸ List.mem_map_of_mem Prod.fst hq)
      rw [hasKey_append, hasKey_cons, hasKey_nil, hq1]
      simp only [Bool.false_or, Bool.or_false, beq_eq_false_iff_ne, ne_eq]
      exact fun h => hq2 h.symm
    · simp only [List.map_cons, List.nodup_cons] at hnd
      exact hnd.2

/-! ## Claims about the merge step -/

/-- C1: for every key `k` already present in a target mapping before a sync
run, the value associated with `k` in the merged mapping that `sync_file`
builds (`lang_data.update(missing_keys)`, where `missing_keys` only holds
keys absent from the target) is the value it had before: the merge only adds
missing keys and never overwrites an existing entry. -/
theorem sync_keeps_existing_values (en data : KVMap) (k : String)
    (h : hasKey data k = true) :
    lookupVal (dictUpdate data (missingKeys en data)) k = lookupVal data k :=
  lookupVal_dictUpdate_not_in_upd data _ k (hasKey_missingKeys_of_present en data k h)

theorem sync_keeps_existing_values_inst :
    hasKey [("a", "Bonjour")] "a" = true ∧
    lookupVal
        (dictUpdate [("a", "Bonjour")]
          (missingKeys [("a", "Hello"), ("b", "World")] [("a", "Bonjour")])) "a"
      = lookupVal [("a", "Bonjour")] "a" :=
  ⟨by decide,
   sync_keeps_existing_values [("a", "Hello"), ("b", "World")] [("a", "Bonjour")] "a"
     (by decide)⟩

/-- C2: after the merge step of `sync_file`, every key of the reference
mapping is present in the resulting target mapping, and every key the target
had before is still present (no key is ever deleted). -/
theorem merged_superset_no_deletion (en data : KVMap) (k : String)
    (h : hasKey en k = true ∨ hasKey data k = true) :
    hasKey (dictUpdate data (missingKeys en data)) k = true := by
  rw [hasKey_dictUpdate]
  rcases h with h | h
  · by_cases hd : hasKey data k = true
    · exact Or.inl hd
    · have hd' : hasKey data k = false := Bool.eq_false_iff.mpr hd
      right
      rcases (hasKey_iff_mem en k).mp h with ⟨v, hv⟩
      exact (hasKey_iff_mem _ k).mpr ⟨v, List.mem_filter.mpr ⟨hv, by simp [hd']⟩⟩
  · exact Or.inl h

theorem merged_superset_no_deletion_inst :
    (hasKey [("a", "Hello"), ("b", "World")] "b" = true ∨
      hasKey [("a", "Bonjour")] "b" = true) ∧
    hasKey
        (dictUpdate [("a", "Bonjour")]
          (missingKeys [("a", "Hello"), ("b", "World")] [("a", "Bonjour")])) "b"
      = true :=
  ⟨Or.inl (by decide),
   merged_superset_no_deletion [("a", "Hello"), ("b", "World")] [("a", "Bonjour")] "b"
     (Or.inl (by decide))⟩

/-- C8: the missing-key set computed by `sync_file` is exactly the list of
reference keys absent from the target, in the reference's iteration order;
its entries are exactly the reference pairs whose key the target lacks; and
the per-locale added count reported by the loop body is the size of the
missing-key set. -/
theorem missing_key_computation_spec (en data : KVMap) :
    ((missingKeys en data).map Prod.fst
        = (en.map Prod.fst).filter (fun k => !(hasKey data k)))
    ∧ (∀ k v, (k, v) ∈ missingKeys en data ↔ ((k, v) ∈ en ∧ hasKey data k = false))
    ∧ (∀ d : DirEntry, ∀ raw : String, d.file = FileState.valid raw data →
        skipDir d.name = false →
        (procDir en d).map Prod.snd = some ((missingKeys en data).length)) := by
  refine ⟨?_, ?_, ?_⟩
  · unfold missingKeys
    induction en with
    | nil => rfl
    | cons p rest ih =>
      by_cases hp : hasKey data p.1 = true
      · simp [List.filter_cons, hp, ih]
      · have hp' : hasKey data p.1 = false := Bool.eq_false_iff.mpr hp
        simp [List.filter_cons, hp', ih]
  · intro k v
    constructor
    · intro h
      have h1 := List.mem_filter.mp h
      exact ⟨h1.1, by simpa using h1.2⟩
    · intro h
      exact List.mem_filter.mpr ⟨h.1, by simpa using h.2⟩
  · intro d raw hf hskip
    unfold procDir
    rw [if_neg (by simp [hskip]), hf]
    cases hm : (missingKeys en data).isEmpty with
    | true =>
      have hnil : missingKeys en data = [] := by
        cases hcase : missingKeys en data with
        | nil => rfl
        | cons a l => rw [hcase] at hm; simp [List.isEmpty] at hm
      simp [hm, hnil]
    | false => simp [hm]

theorem missing_key_computation_spec_inst :
    (procDir [("a", "Hello"), ("b", "World")]
        ⟨"fr", FileState.valid "\x7b\x7d\n" [("a", "Bonjour")]⟩).map Prod.snd
      = some ((missingKeys [("a", "Hello"), ("b", "World")] [("a", "Bonjour")]).length) :=
  (missing_key_computation_spec [("a", "Hello"), ("b", "World")] [("a", "Bonjour")]).2.2
    ⟨"fr", FileState.valid "\x7b\x7d\n" [("a", "Bonjour")]⟩ "\x7b\x7d\n" rfl (by decide)

/-- C10: the merged mapping is the target mapping followed by the missing
pairs: every pre-existing key keeps its position (so the relative iteration
order of pre-existing keys is unchanged), and every newly added key comes
after every pre-existing one. -/
theorem merge_appends_after_existing (en data : KVMap)
    (hen : (en.map Prod.fst).Nodup) :
    dictUpdate data (missingKeys en data) = data ++ missingKeys en data := by
  apply dictUpdate_eq_append
  · intro p hp
    have h2 := (List.mem_filter.mp hp).2
    simpa using h2
  · have hsub : List.Sublist ((missingKeys en data).map Prod.fst) (en.map Prod.fst) :=
      List.Sublist.map Prod.fst (List.filter_sublist en)
    exact hen.sublist hsub

theorem merge_appends_after_existing_inst :
    ([("a", "Hello"), ("b", "World")].map (Prod.fst (α := String) (β := String))).Nodup ∧
    dictUpdate [("a", "Bonjour")]
        (missingKeys [("a", "Hello"), ("b", "World")] [("a", "Bonjour")])
      = [("a", "Bonjour")] ++ missingKeys [("a", "Hello"), ("b", "World")] [("a", "Bonjour")] :=
  ⟨by decide,
   merge_appends_after_existing [("a", "Hello"), ("b", "World")] [("a", "Bonjour")]
     (by decide)⟩

/-! ## Per-directory processing: reduction lemmas -/

theorem procDir_skip (en : KVMap) (d : DirEntry) (h : skipDir d.name = true) :
    procDir en d = some (d, 0) := by
  unfold procDir
  rw [if_pos h]

theorem procDir_absent (en : KVMap) (d : DirEntry)
    (hs : skipDir d.name = false) (hf : d.file = FileState.absent) :
    procDir en d = some (d, 0) := by
  unfold procDir
  rw [if_neg (by simp [hs]), hf]

theorem procDir_invalid (en : KVMap) (d : DirEntry) (raw : String)
    (hs : skipDir d.name = false) (hf : d.file = FileState.invalid raw) :
    procDir en d = none := by
  unfold procDir
  rw [if_neg (by simp [hs]), hf]

theorem procDir_valid (en : KVMap) (d : DirEntry) (raw : String) (data : KVMap)
    (hs : skipDir d.name = false) (hf : d.file = FileState.valid raw data) :
    procDir en d =
      if (missingKeys en data).isEmpty then some (d, 0)
      else
        some (⟨d.name,
          FileState.valid (dump_json raw (dictUpdate data (missingKeys en data)))
            (dictUpdate data (missingKeys en data))⟩,
          (missingKeys en data).length) := by
  unfold procDir
  rw [if_neg (by simp [hs]), hf]

theorem procDir_name (en : KVMap) (d d2 : DirEntry) (n : Nat)
    (h : procDir en d = some (d2, n)) : d2.name = d.name := by
  cases hs : skipDir d.name with
  | true =>
    rw [procDir_skip en d hs] at h
    simp only [Option.some.injEq, Prod.mk.injEq] at h
    rw [← h.1]
  | false =>
    cases hfile : d.file with
    | absent =>
      rw [procDir_absent en d hs hfile] at h
      simp only [Option.some.injEq, Prod.mk.injEq] at h
      rw [← h.1]
    | invalid raw =>
      rw [procDir_invalid en d raw hs hfile] at h
      cases h
    | valid raw data =>
      rw [procDir_valid en d raw data hs hfile] at h
      by_cases hm : (missingKeys en data).isEmpty = true
      · rw [if_pos hm] at h
        simp only [Option.some.injEq, Prod.mk.injEq] at h
        rw [← h.1]
      · rw [if_neg hm] at h
        simp only [Option.some.injEq, Prod.mk.injEq] at h
        rw [← h.1]

theorem procDir_none_iff (en : KVMap) (d : DirEntry) :
    procDir en d = none ↔
      (skipDir d.name = false ∧ ∃ raw, d.file = FileState.invalid raw) := by
  cases hs : skipDir d.name with
  | true =>
    rw [procDir_skip en d hs]
    simp
  | false =>
    cases hfile : d.file with
    | absent => rw [procDir_absent en d hs hfile]; simp [hfile]
    | invalid raw => rw [procDir_invalid en d raw hs hfile]; simp [hfile]
    | valid raw data =>
      rw [procDir_valid en d raw data hs hfile]
      by_cases hm : (missingKeys en data).isEmpty = true
      · rw [if_pos hm]; simp [hfile]
      · rw [if_neg hm]; simp [hfile]

theorem procDir_noop (en : KVMap) (d : DirEntry) (raw : String) (data : KVMap)
    (hf : d.file = FileState.valid raw data)
    (hall : ∀ p ∈ en, hasKey data p.1 = true) :
    procDir en d = some (d, 0) := by
  cases hs : skipDir d.name with
  | true => exact procDir_skip en d hs
  | false =>
    rw [procDir_valid en d raw data hs hf]
    have hempty : missingKeys en data = [] := by
      unfold missingKeys
      refine List.filter_eq_nil_iff.mpr ?_
      intro p hp
      simp [hall p hp]
    rw [hempty]
    rfl

/-! ## The per-directory loop: reduction lemmas -/

theorem runDirs_nil (en : KVMap) : runDirs en [] = ([], some 0) := rfl

theorem runDirs_cons_none (en : KVMap) (d : DirEntry) (rest : List DirEntry)
    (h : procDir en d = none) :
    runDirs en (d :: rest) = (d :: rest, none) := by
  simp only [runDirs, h]

theorem runDirs_cons_some (en : KVMap) (d d2 : DirEntry) (n : Nat)
    (rest : List DirEntry) (h : procDir en d = some (d2, n)) :
    runDirs en (d :: rest)
      = (d2 :: (runDirs en rest).1, (runDirs en rest).2.map (fun m => n + m)) := by
  simp only [runDirs, h]

theorem mem_runDirs_of_fixed (en : KVMap) (d : DirEntry) :
    ∀ l : List DirEntry, d ∈ l → procDir en d = some (d, 0) → d ∈ (runDirs en l).1 := by
  intro l
  induction l with
  | nil => intro h; cases h
  | cons x rest ih =>
    intro hmem hfix
    cases hx : procDir en x with
    | none =>
      rw [runDirs_cons_none en x rest hx]
      exact hmem
    | some pr =>
      rw [runDirs_cons_some en x pr.1 pr.2 rest (by rw [hx])]
      rcases List.mem_cons.mp hmem with rfl | hmem'
      · rw [hfix] at hx
        have hpr : pr.1 = d := by
          simp only [Option.some.injEq] at hx
          rw [← hx]
        rw [hpr]
        exact List.mem_cons_self _ _
      · exact List.mem_cons_of_mem _ (ih hmem' hfix)

/-! ## `sync_file`: reduction lemmas -/

theorem sync_file_absent (t : List DirEntry) (h : lookupEn t = FileState.absent) :
    sync_file t = (sortTree t, some 0) := by
  unfold sync_file
  rw [h]

theorem sync_file_invalid (t : List DirEntry) (raw : String)
    (h : lookupEn t = FileState.invalid raw) :
    sync_file t = (sortTree t, none) := by
  unfold sync_file
  rw [h]

theorem sync_file_valid (t : List DirEntry) (eraw : String) (en : KVMap)
    (h : lookupEn t = FileState.valid eraw en) :
    sync_file t = runDirs en (sortTree t) := by
  unfold sync_file
  rw [h]

theorem runDirs_none_invalid (en : KVMap) :
    ∀ l : List DirEntry, (runDirs en l).2 = none →
      ∃ d ∈ l, ∃ raw, d.file = FileState.invalid raw := by
  intro l
  induction l with
  | nil =>
    intro h
    rw [runDirs_nil] at h
    cases h
  | cons x rest ih =>
    intro h
    cases hx : procDir en x with
    | none =>
      rcases (procDir_none_iff en x).mp hx with ⟨-, raw, hraw⟩
      exact ⟨x, List.mem_cons_self _ _, raw, hraw⟩
    | some pr =>
      rw [runDirs_cons_some en x pr.1 pr.2 rest (by rw [hx])] at h
      have hnone : (runDirs en rest).2 = none := by
        cases hcase : (runDirs en rest).2 with
        | none => rfl
        | some m => rw [hcase] at h; simp at h
      rcases ih hnone with ⟨d, hd, raw, hraw⟩
      exact ⟨d, List.mem_cons_of_mem _ hd, raw, hraw⟩

/-! ## Claim C6 -/

/-- C6: a target file that already contains every reference key is left
completely untouched by `sync_file`: the loop body returns the entry
unchanged with 0 additions (no `dump_json`, no write, bytes preserved
including trailing whitespace), and the unchanged entry appears as-is in the
tree `sync_file` produces. -/
theorem noop_file_untouched (t : List DirEntry) (eraw : String) (en : KVMap)
    (d : DirEntry) (raw : String) (data : KVMap)
    (hen : lookupEn t = FileState.valid eraw en)
    (hd : d ∈ t) (hf : d.file = FileState.valid raw data)
    (hall : ∀ p ∈ en, hasKey data p.1 = true) :
    procDir en d = some (d, 0) ∧ d ∈ (sync_file t).1 := by
  have hnoop := procDir_noop en d raw data hf hall
  refine ⟨hnoop, ?_⟩
  rw [sync_file_valid t eraw en hen]
  exact mem_runDirs_of_fixed en d (sortTree t)
    ((List.mem_insertionSort nameLe).mpr hd) hnoop

theorem noop_file_untouched_inst :
    (∀ p ∈ ([("a", "Hello")] : KVMap), hasKey [("a", "Bonjour")] p.1 = true) ∧
    procDir [("a", "Hello")] ⟨"fr", FileState.valid "F" [("a", "Bonjour")]⟩
      = some (⟨"fr", FileState.valid "F" [("a", "Bonjour")]⟩, 0) ∧
    (⟨"fr", FileState.valid "F" [("a", "Bonjour")]⟩ : DirEntry) ∈
      (sync_file [⟨"en", FileState.valid "E" [("a", "Hello")]⟩,
        ⟨"fr", FileState.valid "F" [("a", "Bonjour")]⟩]).1 := by
  refine ⟨by decide, ?_, ?_⟩
  · exact (noop_file_untouched
      [⟨"en", FileState.valid "E" [("a", "Hello")]⟩,
        ⟨"fr", FileState.valid "F" [("a", "Bonjour")]⟩]
      "E" [("a", "Hello")] ⟨"fr", FileState.valid "F" [("a", "Bonjour")]⟩
      "F" [("a", "Bonjour")] rfl (by decide) rfl (by decide)).1
  · exact (noop_file_untouched
      [⟨"en", FileState.valid "E" [("a", "Hello")]⟩,
        ⟨"fr", FileState.valid "F" [("a", "Bonjour")]⟩]
      "E" [("a", "Hello")] ⟨"fr", FileState.valid "F" [("a", "Bonjour")]⟩
      "F" [("a", "Bonjour")] rfl (by decide) rfl (by decide)).2

/-! ## Claim C3 -/

/-- C3 is false on the code: with a malformed file in locale `aa`, the run
aborts (`none`) and locale `bb` — later in iteration order — is left exactly
as it was, still lacking the reference key `a`, instead of being loaded,
diffed, merged and written. -/
theorem malformed_not_isolated_cex :
    (sync_file treeC3).2 = none ∧
    (sync_file treeC3).1 =
      [⟨"aa", FileState.invalid "not json"⟩,
       ⟨"bb", FileState.valid "\x7b\x7d\n" []⟩,
       ⟨"en", FileState.valid "E" [("a", "Hello")]⟩] ∧
    hasKey [("a", "Hello")] "a" = true ∧ hasKey ([] : KVMap) "a" = false := by
  decide

/-- C3 (amended): a malformed target file is NOT caught at the per-file
boundary: the `json.load` exception escapes `sync_file` and aborts the run
(non-zero exit), leaving the malformed file and every directory after it in
iteration order unprocessed and untouched; only the directories before it
keep the writes already applied. -/
theorem malformed_aborts_rest_unprocessed (en : KVMap) (pre post : List DirEntry)
    (d : DirEntry) (hpre : (runDirs en pre).2.isSome = true)
    (hd : procDir en d = none) :
    runDirs en (pre ++ d :: post) = ((runDirs en pre).1 ++ d :: post, none) := by
  induction pre with
  | nil =>
    rw [List.nil_append, runDirs_cons_none en d post hd, runDirs_nil]
    rfl
  | cons x rest ih =>
    cases hx : procDir en x with
    | none =>
      rw [runDirs_cons_none en x rest hx] at hpre
      simp at hpre
    | some pr =>
      have hx' : procDir en x = some (pr.1, pr.2) := by rw [hx]
      rw [runDirs_cons_some en x pr.1 pr.2 rest hx'] at hpre
      have hrest : (runDirs en rest).2.isSome = true := by
        cases hcase : (runDirs en rest).2 with
        | none => rw [hcase] at hpre; simp at hpre
        | some m => simp
      rw [List.cons_append, runDirs_cons_some en x pr.1 pr.2 (rest ++ d :: post) hx',
        ih hrest, runDirs_cons_some en x pr.1 pr.2 rest hx']
      simp

theorem malformed_aborts_rest_unprocessed_inst :
    ((runDirs [("a", "x")] [⟨"aa", FileState.valid "R" [("a", "x")]⟩]).2.isSome = true) ∧
    (procDir [("a", "x")] ⟨"bb", FileState.invalid "z"⟩ = none) ∧
    runDirs [("a", "x")]
        ([⟨"aa", FileState.valid "R" [("a", "x")]⟩] ++
          ⟨"bb", FileState.invalid "z"⟩ :: [⟨"cc", FileState.valid "S" []⟩])
      = ((runDirs [("a", "x")] [⟨"aa", FileState.valid "R" [("a", "x")]⟩]).1 ++
          ⟨"bb", FileState.invalid "z"⟩ :: [⟨"cc", FileState.valid "S" []⟩], none) :=
  ⟨by decide, by decide,
   malformed_aborts_rest_unprocessed [("a", "x")]
     [⟨"aa", FileState.valid "R" [("a", "x")]⟩] [⟨"cc", FileState.valid "S" []⟩]
     ⟨"bb", FileState.invalid "z"⟩ (by decide) (by decide)⟩

/-! ## Claim C4 -/

/-- C4 is false on the code, in both halves: with the reference file absent
the whole run completes normally with totals `(0, 0)` — `sync_file` just
prints a skip warning and returns 0, and the process exits with status zero —
while a malformed target file (reference present) makes the run abort
non-zero, so a missing reference is not fatal and is not the only source of a
non-zero exit. -/
theorem missing_reference_not_fatal_cex :
    lookupEn treeC4 = FileState.absent ∧
    mainRun treeC4 [] = (([⟨"fr", FileState.valid "\x7b\x7d\n" []⟩], []), some (0, 0)) ∧
    (mainRun treeC4m []).2 = none := by
  decide

/-- C4 (amended): a missing reference file does not abort the run: that
filename is skipped, `sync_file` returns 0 additions and leaves every file
untouched, and the run continues with exit status zero.  The run ends with a
non-zero status only when an uncaught `json.load` error occurs, i.e. only
when some directory's file is malformed. -/
theorem missing_reference_skips_abort_only_parse (t : List DirEntry) :
    (lookupEn t = FileState.absent → sync_file t = (sortTree t, some 0)) ∧
    ((sync_file t).2 = none → ∃ d ∈ t, ∃ raw, d.file = FileState.invalid raw) := by
  constructor
  · intro h
    exact sync_file_absent t h
  · intro h
    cases hen : lookupEn t with
    | absent =>
      rw [sync_file_absent t hen] at h
      cases h
    | invalid raw =>
      unfold lookupEn at hen
      cases hf : List.find? (fun d => d.name == "en") t with
      | none => rw [hf] at hen; cases hen
      | some d =>
        rw [hf] at hen
        exact ⟨d, List.mem_of_find?_eq_some hf, raw, hen⟩
    | valid eraw en =>
      rw [sync_file_valid t eraw en hen] at h
      rcases runDirs_none_invalid en (sortTree t) h with ⟨d, hd, raw, hraw⟩
      exact ⟨d, (List.mem_insertionSort nameLe).mp hd, raw, hraw⟩

theorem missing_reference_skips_abort_only_parse_inst :
    (lookupEn treeC4 = FileState.absent ∧ sync_file treeC4 = (sortTree treeC4, some 0)) ∧
    ((sync_file treeC4m).2 = none ∧
      ∃ d ∈ treeC4m, ∃ raw, d.file = FileState.invalid raw) :=
  ⟨⟨by decide, (missing_reference_skips_abort_only_parse treeC4).1 (by decide)⟩,
   ⟨by decide, (missing_reference_skips_abort_only_parse treeC4m).2 (by decide)⟩⟩

/-! ## Claim C5 -/

/-- C5 exhibits a code bug: `tabOrig` is detected as tab style, yet the
rewritten output after key `b` is added is indented with four spaces and
contains no tab at all.  The conversion
`line.replace("    ", "\t", line.count("    ") // 4)` computes the
replacement count `1 // 4 = 0` on every entry line, so the tab conversion the
source comment announces never happens and the detected style is not
preserved. -/
theorem tab_style_lost_on_rewrite :
    isTabStyle tabOrig = true ∧
    dump_json tabOrig [("a", "x"), ("b", "y")]
      = "\x7b\n    \"a\": \"x\",\n    \"b\": \"y\"\n\x7d\n" ∧
    (dump_json tabOrig [("a", "x"), ("b", "y")]).toList.contains '\t' = false := by
  decide

/-! ## Idempotence and determinism machinery -/

theorem hasKey_missingKeys_mem (en data : KVMap) (p : String × String)
    (hp : p ∈ en) (hnk : hasKey data p.1 = false) :
    hasKey (missingKeys en data) p.1 = true := by
  refine (hasKey_iff_mem _ _).mpr ⟨p.2, ?_⟩
  exact List.mem_filter.mpr ⟨hp, by simp [hnk]⟩

theorem missingKeys_dictUpdate_empty (en data : KVMap) :
    missingKeys en (dictUpdate data (missingKeys en data)) = [] := by
  refine List.filter_eq_nil_iff.mpr ?_
  intro p hp
  simp only [Bool.not_eq_true', Bool.not_eq_false]
  cases hk : hasKey data p.1 with
  | true => exact (hasKey_dictUpdate _ _ _).mpr (Or.inl hk)
  | false =>
    exact (hasKey_dictUpdate _ _ _).mpr (Or.inr (hasKey_missingKeys_mem en data p hp hk))

theorem procDir_idem (en : KVMap) (d d2 : DirEntry) (n : Nat)
    (h : procDir en d = some (d2, n)) : procDir en d2 = some (d2, 0) := by
  cases hs : skipDir d.name with
  | true =>
    rw [procDir_skip en d hs] at h
    simp only [Option.some.injEq, Prod.mk.injEq] at h
    rw [← h.1]
    exact procDir_skip en d hs
  | false =>
    cases hfile : d.file with
    | absent =>
      rw [procDir_absent en d hs hfile] at h
      simp only [Option.some.injEq, Prod.mk.injEq] at h
      rw [← h.1]
      exact procDir_absent en d hs hfile
    | invalid raw =>
      rw [procDir_invalid en d raw hs hfile] at h
      cases h
    | valid raw data =>
      rw [procDir_valid en d raw data hs hfile] at h
      by_cases hm : (missingKeys en data).isEmpty = true
      · rw [if_pos hm] at h
        simp only [Option.some.injEq, Prod.mk.injEq] at h
        rw [← h.1]
        rw [procDir_valid en d raw data hs hfile, if_pos hm]
      · rw [if_neg hm] at h
        simp only [Option.some.injEq, Prod.mk.injEq] at h
        obtain ⟨hd2, -⟩ := h
        subst hd2
        rw [procDir_valid en
          ⟨d.name, FileState.valid
            (dump_json raw (dictUpdate data (missingKeys en data)))
            (dictUpdate data (missingKeys en data))⟩
          (dump_json raw (dictUpdate data (missingKeys en data)))
          (dictUpdate data (missingKeys en data)) hs rfl]
        rw [if_pos (by rw [missingKeys_dictUpdate_empty]; rfl)]

theorem runDirs_idem (en : KVMap) :
    ∀ l : List DirEntry,
      runDirs en (runDirs en l).1
        = ((runDirs en l).1, (runDirs en l).2.map (fun _ => 0)) := by
  intro l
  induction l with
  | nil => rfl
  | cons d rest ih =>
    cases hx : procDir en d with
    | none =>
      rw [runDirs_cons_none en d rest hx, runDirs_cons_none en d rest hx]
      rfl
    | some pr =>
      have hx' : procDir en d = some (pr.1, pr.2) := by rw [hx]
      rw [runDirs_cons_some en d pr.1 pr.2 rest hx']
      have hpr0 : procDir en pr.1 = some (pr.1, 0) := procDir_idem en d pr.1 pr.2 hx'
      rw [runDirs_cons_some en pr.1 pr.1 0 (runDirs en rest).1 hpr0, ih]
      cases hsnd : (runDirs en rest).2 with
      | none => simp
      | some m => simp

theorem runDirs_pointwise (en : KVMap) :
    ∀ l : List DirEntry, List.Forall₂ entryRel l (runDirs en l).1 := by
  intro l
  induction l with
  | nil => exact List.Forall₂.nil
  | cons d rest ih =>
    cases hx : procDir en d with
    | none =>
      rw [runDirs_cons_none en d rest hx]
      exact List.forall₂_same.mpr (fun a _ => ⟨rfl, fun _ => rfl⟩)
    | some pr =>
      have hx' : procDir en d = some (pr.1, pr.2) := by rw [hx]
      rw [runDirs_cons_some en d pr.1 pr.2 rest hx']
      refine List.Forall₂.cons ⟨(procDir_name en d pr.1 pr.2 hx').symm, ?_⟩ ih
      intro hskip
      rw [procDir_skip en d hskip] at hx'
      simp only [Option.some.injEq, Prod.mk.injEq] at hx'
      exact hx'.1

theorem lookupEn_congr : ∀ l l' : List DirEntry,
    List.Forall₂ entryRel l l' → lookupEn l = lookupEn l' := by
  intro l l' h
  induction h with
  | nil => rfl
  | @cons a b as bs hab hrest ih =>
    unfold lookupEn
    cases hn : (a.name == "en") with
    | true =>
      have hbn : (b.name == "en") = true := by rw [← hab.1]; exact hn
      have hab2 : a = b := hab.2 (by simp [skipDir, hn])
      simp only [List.find?_cons, hn, hbn, hab2]
    | false =>
      have hbn : (b.name == "en") = false := by rw [← hab.1]; exact hn
      simp only [List.find?_cons, hn, hbn]
      exact ih

theorem runDirs_names (en : KVMap) :
    ∀ l : List DirEntry, ((runDirs en l).1).map DirEntry.name = l.map DirEntry.name := by
  intro l
  induction l with
  | nil => rfl
  | cons d rest ih =>
    cases hx : procDir en d with
    | none => rw [runDirs_cons_none en d rest hx]
    | some pr =>
      rw [runDirs_cons_some en d pr.1 pr.2 rest (by rw [hx])]
      simp only [List.map_cons, ih, procDir_name en d pr.1 pr.2 (by rw [hx])]

theorem lookupEn_perm (t1 t2 : List DirEntry) (hnd : (t1.map DirEntry.name).Nodup)
    (hp : t1.Perm t2) : lookupEn t1 = lookupEn t2 := by
  unfold lookupEn
  cases h1 : List.find? (fun d => d.name == "en") t1 with
  | none =>
    rw [List.find?_eq_none.mpr
      (fun x hx => (List.find?_eq_none.mp h1) x (hp.symm.subset hx))]
  | some d =>
    have hd1 : d ∈ t1 := List.mem_of_find?_eq_some h1
    have hpd : (d.name == "en") = true := by simpa using List.find?_some h1
    cases h2 : List.find? (fun d => d.name == "en") t2 with
    | none =>
      exact absurd hpd ((List.find?_eq_none.mp h2) d (hp.subset hd1))
    | some d2 =>
      have hd2 : d2 ∈ t1 := hp.symm.subset (List.mem_of_find?_eq_some h2)
      have hpd2 : (d2.name == "en") = true := by simpa using List.find?_some h2
      have heq : d = d2 := by
        refine List.inj_on_of_nodup_map hnd hd1 hd2 ?_
        rw [beq_iff_eq] at hpd hpd2
        rw [hpd, hpd2]
      rw [heq]

theorem sortTree_perm (t : List DirEntry) : (sortTree t).Perm t :=
  List.perm_insertionSort nameLe t

theorem sorted_sortTree (t : List DirEntry) : List.Sorted nameLe (sortTree t) :=
  List.sorted_insertionSort nameLe t

theorem sortTree_eq_self (t : List DirEntry) (h : List.Sorted nameLe t) :
    sortTree t = t :=
  h.insertionSort_eq

theorem sorted_strict_of_sorted_nodup (l : List DirEntry)
    (hs : List.Sorted nameLe l) (hnd : (l.map DirEntry.name).Nodup) :
    List.Sorted nameLt l := by
  have hne : l.Pairwise (fun a b => a.name ≠ b.name) := by
    have h1 := hnd
    rw [List.Nodup, List.pairwise_map] at h1
    exact h1
  have hand := List.Pairwise.and hs hne
  refine hand.imp ?_
  intro a b hab
  exact lt_of_le_of_ne hab.1 (fun hc => hab.2 (String.ext hc))

theorem sortTree_eq_of_perm (t1 t2 : List DirEntry)
    (hnd : (t1.map DirEntry.name).Nodup) (hp : t1.Perm t2) :
    sortTree t1 = sortTree t2 := by
  have hp' : (sortTree t1).Perm (sortTree t2) :=
    (sortTree_perm t1).trans (hp.trans (sortTree_perm t2).symm)
  have hnd1 : ((sortTree t1).map DirEntry.name).Nodup :=
    (((sortTree_perm t1).map DirEntry.name).nodup_iff).mpr hnd
  have hnd2 : ((sortTree t2).map DirEntry.name).Nodup := by
    have h2 : (t2.map DirEntry.name).Nodup := ((hp.map DirEntry.name).nodup_iff).mp hnd
    exact (((sortTree_perm t2).map DirEntry.name).nodup_iff).mpr h2
  exact List.eq_of_perm_of_sorted hp'
    (sorted_strict_of_sorted_nodup _ (sorted_sortTree t1) hnd1)
    (sorted_strict_of_sorted_nodup _ (sorted_sortTree t2) hnd2)

theorem sorted_of_names_eq (l l' : List DirEntry)
    (h : l.map DirEntry.name = l'.map DirEntry.name)
    (hs : List.Sorted nameLe l) : List.Sorted nameLe l' := by
  have h1 : List.Pairwise (fun a b : String => a.toList ≤ b.toList)
      (l.map DirEntry.name) := by
    rw [List.pairwise_map]
    exact hs
  rw [h, List.pairwise_map] at h1
  exact h1

theorem sync_file_idem (t : List DirEntry) (hnd : (t.map DirEntry.name).Nodup) :
    sync_file (sync_file t).1 = ((sync_file t).1, (sync_file t).2.map (fun _ => 0)) := by
  have hperm : (sortTree t).Perm t := sortTree_perm t
  have hndSorted : ((sortTree t).map DirEntry.name).Nodup :=
    ((hperm.map DirEntry.name).nodup_iff).mpr hnd
  cases hen : lookupEn t with
  | absent =>
    rw [sync_file_absent t hen]
    have h2 : lookupEn (sortTree t) = FileState.absent := by
      rw [lookupEn_perm (sortTree t) t hndSorted hperm, hen]
    rw [sync_file_absent (sortTree t) h2, sortTree_eq_self (sortTree t) (sorted_sortTree t)]
    rfl
  | invalid raw =>
    rw [sync_file_invalid t raw hen]
    have h2 : lookupEn (sortTree t) = FileState.invalid raw := by
      rw [lookupEn_perm (sortTree t) t hndSorted hperm, hen]
    rw [sync_file_invalid (sortTree t) raw h2,
      sortTree_eq_self (sortTree t) (sorted_sortTree t)]
    rfl
  | valid eraw en =>
    rw [sync_file_valid t eraw en hen]
    have hlook2 : lookupEn (runDirs en (sortTree t)).1 = FileState.valid eraw en := by
      rw [← lookupEn_congr (sortTree t) (runDirs en (sortTree t)).1
        (runDirs_pointwise en (sortTree t))]
      rw [lookupEn_perm (sortTree t) t hndSorted hperm, hen]
    have hsorted2 : List.Sorted nameLe (runDirs en (sortTree t)).1 :=
      sorted_of_names_eq (sortTree t) _ (runDirs_names en (sortTree t)).symm
        (sorted_sortTree t)
    rw [sync_file_valid (runDirs en (sortTree t)).1 eraw en hlook2,
      sortTree_eq_self _ hsorted2]
    exact runDirs_idem en (sortTree t)

theorem mainRun_abort_first (c s : List DirEntry) (h : (sync_file c).2 = none) :
    mainRun c s = (((sync_file c).1, s), none) := by
  simp only [mainRun, h]

theorem mainRun_abort_second (c s : List DirEntry) (n1 : Nat)
    (h1 : (sync_file c).2 = some n1) (h2 : (sync_file s).2 = none) :
    mainRun c s = (((sync_file c).1, (sync_file s).1), none) := by
  simp only [mainRun, h1, h2]

theorem mainRun_ok (c s : List DirEntry) (n1 n2 : Nat)
    (h1 : (sync_file c).2 = some n1) (h2 : (sync_file s).2 = some n2) :
    mainRun c s = (((sync_file c).1, (sync_file s).1), some (n1, n2)) := by
  simp only [mainRun, h1, h2]

/-! ## Claim C7 -/

/-- C7: the engine is idempotent.  Running `main` a second time on the trees
the first run produced changes no file (the trees come back byte-identical)
and adds zero keys: the reported totals of a completed second run are
`(0, 0)`, and when the first run aborted, the second aborts at the same point
with the same on-disk state. -/
theorem engine_idempotent (c s : List DirEntry)
    (hc : (c.map DirEntry.name).Nodup) (hs : (s.map DirEntry.name).Nodup) :
    mainRun (mainRun c s).1.1 (mainRun c s).1.2
      = ((mainRun c s).1, (mainRun c s).2.map (fun _ => (0, 0))) := by
  have hci := sync_file_idem c hc
  have hsi := sync_file_idem s hs
  cases hc2 : (sync_file c).2 with
  | none =>
    rw [mainRun_abort_first c s hc2]
    have h1 : (sync_file (sync_file c).1).2 = none := by rw [hci, hc2]; rfl
    rw [mainRun_abort_first (sync_file c).1 s h1]
    rw [hci]
    rfl
  | some n1 =>
    have h1 : (sync_file (sync_file c).1).2 = some 0 := by rw [hci, hc2]; rfl
    cases hs2 : (sync_file s).2 with
    | none =>
      rw [mainRun_abort_second c s n1 hc2 hs2]
      have h2 : (sync_file (sync_file s).1).2 = none := by rw [hsi, hs2]; rfl
      rw [mainRun_abort_second (sync_file c).1 (sync_file s).1 0 h1 h2]
      rw [hci, hsi]
      rfl
    | some n2 =>
      rw [mainRun_ok c s n1 n2 hc2 hs2]
      have h2 : (sync_file (sync_file s).1).2 = some 0 := by rw [hsi, hs2]; rfl
      rw [mainRun_ok (sync_file c).1 (sync_file s).1 0 0 h1 h2]
      rw [hci, hsi]
      rfl

theorem engine_idempotent_inst :
    ((witComm.map DirEntry.name).Nodup ∧ (witSett.map DirEntry.name).Nodup) ∧
    mainRun (mainRun witComm witSett).1.1 (mainRun witComm witSett).1.2
      = ((mainRun witComm witSett).1, (mainRun witComm witSett).2.map (fun _ => (0, 0))) :=
  ⟨⟨by decide, by decide⟩, engine_idempotent witComm witSett (by decide) (by decide)⟩

/-! ## Claim C9 -/

/-- C9: the orchestrator visits the locale directories in ascending
lexicographic order of the directory name (the tree `sync_file` returns is
sorted by name), and its result is a function of the directory tree alone:
feeding the same tree enumerated in any other order (as `iterdir` may) yields
the identical output — the same per-locale results and the same output
bytes. -/
theorem batch_sorted_deterministic (t1 t2 : List DirEntry)
    (hnd : (t1.map DirEntry.name).Nodup) (hp : t1.Perm t2) :
    List.Sorted nameLe (sync_file t1).1 ∧ sync_file t1 = sync_file t2 := by
  constructor
  · cases hen : lookupEn t1 with
    | absent =>
      rw [sync_file_absent t1 hen]
      exact sorted_sortTree t1
    | invalid raw =>
      rw [sync_file_invalid t1 raw hen]
      exact sorted_sortTree t1
    | valid eraw en =>
      rw [sync_file_valid t1 eraw en hen]
      exact sorted_of_names_eq (sortTree t1) _ (runDirs_names en (sortTree t1)).symm
        (sorted_sortTree t1)
  · have hlook : lookupEn t1 = lookupEn t2 := lookupEn_perm t1 t2 hnd hp
    have hsort : sortTree t1 = sortTree t2 := sortTree_eq_of_perm t1 t2 hnd hp
    cases hen : lookupEn t1 with
    | absent =>
      rw [sync_file_absent t1 hen, sync_file_absent t2 (by rw [← hlook]; exact hen), hsort]
    | invalid raw =>
      rw [sync_file_invalid t1 raw hen,
        sync_file_invalid t2 raw (by rw [← hlook]; exact hen), hsort]
    | valid eraw en =>
      rw [sync_file_valid t1 eraw en hen,
        sync_file_valid t2 eraw en (by rw [← hlook]; exact hen), hsort]

theorem batch_sorted_deterministic_inst :
    ((witComm.map DirEntry.name).Nodup ∧
      witComm.Perm [⟨"fr", FileState.valid "\x7b\n    \"a\": \"Bonjour\"\n\x7d\n" [("a", "Bonjour")]⟩,
        ⟨"en", FileState.valid "E" [("a", "Hello"), ("b", "World")]⟩]) ∧
    List.Sorted nameLe (sync_file witComm).1 ∧
    sync_file witComm
      = sync_file [⟨"fr", FileState.valid "\x7b\n    \"a\": \"Bonjour\"\n\x7d\n" [("a", "Bonjour")]⟩,
        ⟨"en", FileState.valid "E" [("a", "Hello"), ("b", "World")]⟩] :=
  ⟨⟨by decide, List.Perm.swap _ _ _⟩,
   batch_sorted_deterministic witComm _ (by decide) (List.Perm.swap _ _ _)⟩

end LocaleSync
